import Mathlib

/-!
Shallow embedding of the FileRenamer utilities (rename_image_files.py,
rename_pdf_files.py, gemini_vision.py) and proofs about them.

Strings are modelled through their character lists; the filesystem is a list
of entry names of the target directory; the external model is an oracle
`String → Option String` (`some text` on success, `none` on failure).
-/

namespace FileRenamer

/-- Python whitespace characters, as used by `str.strip()` and `str.split()`. -/
def isSpaceChar (c : Char) : Bool :=
  c == ' ' || c == '\t' || c == '\n' || c == '\x0b' || c == '\x0c' || c == '\r'

/-- Python `str.strip()` on a character list: drop whitespace from both ends. -/
def stripChars (l : List Char) : List Char :=
  ((l.dropWhile isSpaceChar).reverse.dropWhile isSpaceChar).reverse

/-- Python `str.strip()` on a string. -/
def pyStrip (s : String) : String :=
  String.mk (stripChars s.data)

/-- Python `str.split()` (no separator argument): split on runs of whitespace,
dropping empty fragments.  `acc` is the current fragment, reversed. -/
def splitWsAux : List Char → List Char → List (List Char)
  | [], acc => if acc.isEmpty then [] else [acc.reverse]
  | c :: rest, acc =>
    if isSpaceChar c then
      if acc.isEmpty then splitWsAux rest [] else acc.reverse :: splitWsAux rest []
    else splitWsAux rest (c :: acc)

/-- Python `str.split()` on a character list. -/
def pySplit (l : List Char) : List (List Char) := splitWsAux l []

namespace ImageFileRenamer

/-- The characters matched by the regex `[\\/:*?"<>|]` in
`ImageFileRenamer.sanitize_filename`. -/
def forbiddenChars : List Char := ['\\', '/', ':', '*', '?', '"', '<', '>', '|']

/-- One character of Python `s.replace(' ', '_')`. -/
def replaceSpace (c : Char) : Char := if c == ' ' then '_' else c

/-- `ImageFileRenamer.sanitize_filename`: remove the forbidden characters
(`re.sub`), replace each space by an underscore, then strip. -/
def sanitize_filename (filename : String) : String :=
  let s := filename.data.filter (fun c => !(forbiddenChars.contains c))
  let s2 := s.map replaceSpace
  String.mk (stripChars s2)

end ImageFileRenamer

namespace PDFRenamer

/-- `invalid_chars = '<>:"/\\|?*\n\r\t'` in `PDFRenamer._sanitize_filename`. -/
def invalid_chars : List Char :=
  ['<', '>', ':', '"', '/', '\\', '|', '?', '*', '\n', '\r', '\t']

/-- Python `'_'.join(tokens)` on character lists. -/
def joinUnderscore : List (List Char) → List Char
  | [] => []
  | [t] => t
  | t :: ts => t ++ '_' :: joinUnderscore ts

/-- `PDFRenamer._sanitize_filename`: remove each invalid character, then
`'_'.join(filename.split()).strip()`. -/
def sanitize_filename (filename : String) : String :=
  let s := filename.data.filter (fun c => !(invalid_chars.contains c))
  String.mk (stripChars (joinUnderscore (pySplit s)))

end PDFRenamer

/-! ### Basic lemmas about the string helpers -/

theorem dropWhile_dropWhile (p : Char → Bool) (l : List Char) :
    (l.dropWhile p).dropWhile p = l.dropWhile p := by
  induction l with
  | nil => rfl
  | cons c rest ih =>
    by_cases h : p c
    · simp [List.dropWhile, h, ih]
    · simp [List.dropWhile, h]

/-- A stripped list has no leading whitespace. -/
theorem dropWhile_stripChars (l : List Char) :
    (stripChars l).dropWhile isSpaceChar = stripChars l := by
  unfold stripChars
  cases hBr : ((l.dropWhile isSpaceChar).reverse.dropWhile isSpaceChar).reverse with
  | nil => simp
  | cons c rest =>
    have hhead : ((l.dropWhile isSpaceChar).reverse.dropWhile isSpaceChar).reverse.head?
        = some c := by rw [hBr]; rfl
    rw [List.head?_reverse] at hhead
    obtain ⟨t, ht⟩ := List.dropWhile_suffix (l := (l.dropWhile isSpaceChar).reverse) isSpaceChar
    have h1 : (l.dropWhile isSpaceChar).reverse.getLast? = some c := by
      rw [← ht, List.getLast?_append, hhead]; rfl
    rw [List.getLast?_reverse] at h1
    have h3 := List.head?_dropWhile_not isSpaceChar l
    rw [h1] at h3
    simp only at h3
    exact List.dropWhile_cons_of_neg (by simp [h3])

theorem stripChars_stripChars (l : List Char) :
    stripChars (stripChars l) = stripChars l := by
  show (((stripChars l).dropWhile isSpaceChar).reverse.dropWhile isSpaceChar).reverse
      = stripChars l
  rw [dropWhile_stripChars]
  unfold stripChars
  rw [List.reverse_reverse, dropWhile_dropWhile]

theorem mem_of_mem_dropWhile {p : Char → Bool} {l : List Char} {a : Char}
    (h : a ∈ l.dropWhile p) : a ∈ l :=
  (List.dropWhile_sublist p).subset h

theorem mem_of_mem_stripChars {l : List Char} {a : Char}
    (h : a ∈ stripChars l) : a ∈ l := by
  unfold stripChars at h
  rw [List.mem_reverse] at h
  have h2 := mem_of_mem_dropWhile h
  rw [List.mem_reverse] at h2
  exact mem_of_mem_dropWhile h2

theorem dropWhile_eq_self_of_not {p : Char → Bool} {l : List Char}
    (h : ∀ c ∈ l, ¬ p c) : l.dropWhile p = l := by
  cases l with
  | nil => rfl
  | cons c rest =>
    simp [List.dropWhile, h c (List.mem_cons_self c rest)]

theorem stripChars_eq_self_of_not_space {l : List Char}
    (h : ∀ c ∈ l, ¬ isSpaceChar c) : stripChars l = l := by
  unfold stripChars
  rw [dropWhile_eq_self_of_not h]
  rw [dropWhile_eq_self_of_not (fun c hc => h c (List.mem_reverse.mp hc))]
  exact List.reverse_reverse l

theorem map_eq_self_of_mem {f : Char → Char} :
    ∀ {l : List Char}, (∀ c ∈ l, f c = c) → l.map f = l := by
  intro l
  induction l with
  | nil => intro _; rfl
  | cons c rest ih =>
    intro h
    simp only [List.map_cons, h c (List.mem_cons_self c rest),
      ih (fun a ha => h a (List.mem_cons_of_mem c ha))]

/-- Tokens produced by `splitWsAux` contain no whitespace characters. -/
theorem splitWsAux_tokens_no_space :
    ∀ (l acc : List Char), (∀ c ∈ acc, isSpaceChar c = false) →
      ∀ t ∈ splitWsAux l acc, ∀ c ∈ t, isSpaceChar c = false := by
  intro l
  induction l with
  | nil =>
    intro acc hacc t ht c hc
    by_cases h : acc.isEmpty <;> simp [splitWsAux, h] at ht
    subst ht
    exact hacc c (List.mem_reverse.mp hc)
  | cons x rest ih =>
    intro acc hacc t ht c hc
    cases hx : isSpaceChar x
    · simp [splitWsAux, hx] at ht
      refine ih (x :: acc) ?_ t ht c hc
      intro a ha
      rcases List.mem_cons.mp ha with rfl | ha
      · exact hx
      · exact hacc a ha
    · cases h : acc.isEmpty
      · simp [splitWsAux, hx, h] at ht
        rcases ht with ht | ht
        · subst ht; exact hacc c (List.mem_reverse.mp hc)
        · exact ih [] (by intro a ha; cases ha) t ht c hc
      · simp [splitWsAux, hx, h] at ht
        exact ih [] (by intro a ha; cases ha) t ht c hc

/-- Every character of every token of `splitWsAux` comes from the input or
the accumulator. -/
theorem splitWsAux_tokens_mem (P : Char → Prop) :
    ∀ (l acc : List Char), (∀ c ∈ l, P c) → (∀ c ∈ acc, P c) →
      ∀ t ∈ splitWsAux l acc, ∀ c ∈ t, P c := by
  intro l
  induction l with
  | nil =>
    intro acc _ hacc t ht c hc
    by_cases h : acc.isEmpty <;> simp [splitWsAux, h] at ht
    subst ht
    exact hacc c (List.mem_reverse.mp hc)
  | cons x rest ih =>
    intro acc hl hacc t ht c hc
    have hlrest : ∀ c ∈ rest, P c := fun a ha => hl a (List.mem_cons_of_mem x ha)
    cases hx : isSpaceChar x
    · simp [splitWsAux, hx] at ht
      refine ih (x :: acc) hlrest ?_ t ht c hc
      intro a ha
      rcases List.mem_cons.mp ha with rfl | ha
      · exact hl a (List.mem_cons_self a rest)
      · exact hacc a ha
    · cases h : acc.isEmpty
      · simp [splitWsAux, hx, h] at ht
        rcases ht with ht | ht
        · subst ht; exact hacc c (List.mem_reverse.mp hc)
        · exact ih [] hlrest (by intro a ha; cases ha) t ht c hc
      · simp [splitWsAux, hx, h] at ht
        exact ih [] hlrest (by intro a ha; cases ha) t ht c hc

/-- `splitWsAux` on whitespace-free input returns the single joined fragment. -/
theorem splitWsAux_of_no_space :
    ∀ (l acc : List Char), (∀ c ∈ l, isSpaceChar c = false) →
      splitWsAux l acc =
        if (acc.reverse ++ l).isEmpty then [] else [acc.reverse ++ l] := by
  intro l
  induction l with
  | nil =>
    intro acc _
    cases acc <;> simp [splitWsAux]
  | cons c rest ih =>
    intro acc h
    have hc : isSpaceChar c = false := h c (List.mem_cons_self c rest)
    rw [splitWsAux, if_neg (by simp [hc]),
      ih (c :: acc) (fun a ha => h a (List.mem_cons_of_mem c ha))]
    simp

/-- Inserting one more space into an existing run of spaces does not change
the result of `splitWsAux`. -/
theorem splitWsAux_collapse (ys : List Char) :
    ∀ (xs acc : List Char),
      splitWsAux (xs ++ ' ' :: ' ' :: ys) acc = splitWsAux (xs ++ ' ' :: ys) acc := by
  intro xs
  induction xs with
  | nil =>
    intro acc
    by_cases h : acc.isEmpty <;>
      simp [splitWsAux, h, isSpaceChar]
  | cons x xs ih =>
    intro acc
    by_cases hx : isSpaceChar x <;>
      by_cases h : acc.isEmpty <;>
        simp [splitWsAux, hx, h, ih]

/-- Characters of `joinUnderscore` are underscores or characters of tokens. -/
theorem mem_joinUnderscore {c : Char} :
    ∀ {L : List (List Char)}, c ∈ PDFRenamer.joinUnderscore L →
      c = '_' ∨ ∃ t ∈ L, c ∈ t := by
  intro L
  induction L with
  | nil => intro h; cases h
  | cons t ts ih =>
    cases ts with
    | nil =>
      intro h
      exact Or.inr ⟨t, List.mem_cons_self t [], h⟩
    | cons u us =>
      intro h
      rw [show PDFRenamer.joinUnderscore (t :: u :: us)
          = t ++ '_' :: PDFRenamer.joinUnderscore (u :: us) from rfl] at h
      rcases List.mem_append.mp h with h | h
      · exact Or.inr ⟨t, List.mem_cons_self t _, h⟩
      · rcases List.mem_cons.mp h with rfl | h
        · exact Or.inl rfl
        · rcases ih h with h | ⟨v, hv, hcv⟩
          · exact Or.inl h
          · exact Or.inr ⟨v, List.mem_cons_of_mem t hv, hcv⟩

/-! ### Character-level characterisation of the two sanitizers -/

/-- Characters surviving `ImageFileRenamer.sanitize_filename` are neither
forbidden nor spaces. -/
theorem image_sanitize_chars {s : String} {c : Char}
    (hc : c ∈ (ImageFileRenamer.sanitize_filename s).data) :
    c ∉ ImageFileRenamer.forbiddenChars ∧ c ≠ ' ' := by
  have hdata : (ImageFileRenamer.sanitize_filename s).data
      = stripChars ((s.data.filter
          (fun b => !(ImageFileRenamer.forbiddenChars.contains b))).map
            ImageFileRenamer.replaceSpace) := rfl
  rw [hdata] at hc
  have h1 := mem_of_mem_stripChars hc
  rw [List.mem_map] at h1
  obtain ⟨b, hb, hbc⟩ := h1
  rw [List.mem_filter] at hb
  unfold ImageFileRenamer.replaceSpace at hbc
  by_cases hsp : b == ' '
  · rw [if_pos hsp] at hbc
    subst hbc
    exact ⟨by decide, by decide⟩
  · rw [if_neg hsp] at hbc
    subst hbc
    refine ⟨?_, by simpa using hsp⟩
    intro hmem
    have h2 := hb.2
    simp [List.contains, hmem] at h2

/-- Characters surviving `PDFRenamer.sanitize_filename` are neither invalid
nor whitespace. -/
theorem pdf_sanitize_chars {s : String} {c : Char}
    (hc : c ∈ (PDFRenamer.sanitize_filename s).data) :
    c ∉ PDFRenamer.invalid_chars ∧ isSpaceChar c = false := by
  have hdata : (PDFRenamer.sanitize_filename s).data
      = stripChars (PDFRenamer.joinUnderscore (pySplit
          (s.data.filter (fun b => !(PDFRenamer.invalid_chars.contains b))))) := rfl
  rw [hdata] at hc
  have h1 := mem_of_mem_stripChars hc
  rcases mem_joinUnderscore h1 with rfl | ⟨t, ht, hct⟩
  · exact ⟨by decide, by decide⟩
  · constructor
    · refine splitWsAux_tokens_mem (· ∉ PDFRenamer.invalid_chars) _ []
        ?_ (by intro a ha; cases ha) t ht c hct
      intro a ha
      rw [List.mem_filter] at ha
      intro hmem
      have h2 := ha.2
      simp [List.contains, hmem] at h2
    · exact splitWsAux_tokens_no_space _ [] (by intro a ha; cases ha) t ht c hct

/-- C4: sanitizer output is filesystem-safe: for all input strings, the image
sanitizer output contains none of the forbidden characters and no space, and
is whitespace-trimmed (stripping it again changes nothing); the PDF sanitizer
output contains none of its invalid characters (which include newlines, CR
and tabs) and no whitespace character at all. -/
theorem sanitize_output_filesystem_safe (s : String) :
    (∀ c ∈ ImageFileRenamer.forbiddenChars,
        c ∉ (ImageFileRenamer.sanitize_filename s).data) ∧
    ' ' ∉ (ImageFileRenamer.sanitize_filename s).data ∧
    stripChars (ImageFileRenamer.sanitize_filename s).data
      = (ImageFileRenamer.sanitize_filename s).data ∧
    (∀ c ∈ PDFRenamer.invalid_chars,
        c ∉ (PDFRenamer.sanitize_filename s).data) ∧
    (∀ c ∈ (PDFRenamer.sanitize_filename s).data, isSpaceChar c = false) := by
  refine ⟨?_, ?_, ?_, ?_, ?_⟩
  · intro c hcf hc
    exact (image_sanitize_chars hc).1 hcf
  · intro hc
    exact (image_sanitize_chars hc).2 rfl
  · exact stripChars_stripChars _
  · intro c hcf hc
    exact (pdf_sanitize_chars hc).1 hcf
  · intro c hc
    exact (pdf_sanitize_chars hc).2

/-- Witness for C4 at a concrete input. -/
theorem sanitize_output_filesystem_safe_witness :
    ('\\' ∈ ImageFileRenamer.forbiddenChars) ∧
    '\\' ∉ (ImageFileRenamer.sanitize_filename "a\\b c ").data :=
  ⟨by decide, (sanitize_output_filesystem_safe "a\\b c ").1 '\\' (by decide)⟩

/-- C7 counterexample: neither sanitizer maps every maximal whitespace run to
a single underscore: the image sanitizer turns two spaces into two
underscores, and the PDF sanitizer deletes newlines instead of replacing the
run by a separator. -/
theorem whitespace_collapse_counterexample :
    ImageFileRenamer.sanitize_filename "a  b" = "a__b" ∧
    ImageFileRenamer.sanitize_filename "a  b" ≠ "a_b" ∧
    PDFRenamer.sanitize_filename "a\nb" = "ab" ∧
    PDFRenamer.sanitize_filename "a\nb" ≠ "a_b" := by
  refine ⟨rfl, by decide, rfl, by decide⟩

/-- `replaceSpace` fixes every non-whitespace character. -/
theorem replaceSpace_eq_self {c : Char} (h : isSpaceChar c = false) :
    ImageFileRenamer.replaceSpace c = c := by
  have hne : ¬ ((c == ' ') = true) := by
    intro hc
    rw [eq_of_beq hc] at h
    simp [isSpaceChar] at h
  unfold ImageFileRenamer.replaceSpace
  rw [if_neg hne]

/-- A whitespace-free fragment followed by a space: `splitWsAux` emits the
fragment as one token and restarts with an empty accumulator. -/
theorem splitWsAux_fragment_space (rest : List Char) :
    ∀ (xs acc : List Char), (∀ c ∈ xs, isSpaceChar c = false) →
      acc.reverse ++ xs ≠ [] →
      splitWsAux (xs ++ ' ' :: rest) acc
        = (acc.reverse ++ xs) :: splitWsAux rest [] := by
  intro xs
  induction xs with
  | nil =>
    intro acc _ hne
    rw [List.append_nil] at hne
    have hacc : acc.isEmpty = false := by
      cases acc
      · simp at hne
      · rfl
    simp [splitWsAux, isSpaceChar, hacc]
  | cons x xs ih =>
    intro acc hxs hne
    have hx : isSpaceChar x = false := hxs x (List.mem_cons_self x xs)
    show splitWsAux (x :: (xs ++ ' ' :: rest)) acc = _
    simp only [splitWsAux]
    rw [if_neg (by simp [hx]),
      ih (x :: acc) (fun c hc => hxs c (List.mem_cons_of_mem x hc)) (by simp)]
    simp [List.append_assoc]

/-- Leading spaces before an empty accumulator are skipped by `splitWsAux`. -/
theorem splitWsAux_skip_spaces (rest : List Char) :
    ∀ k, splitWsAux (List.replicate k ' ' ++ rest) [] = splitWsAux rest [] := by
  intro k
  induction k with
  | zero => rfl
  | succ k ih =>
    show splitWsAux (List.replicate k ' ' ++ rest) [] = splitWsAux rest []
    exact ih

/-- Filtering away invalid characters fixes a clean list. -/
theorem filter_keep_of_clean {invalid : List Char} {l : List Char}
    (h : ∀ c ∈ l, c ∉ invalid) :
    l.filter (fun c => !(invalid.contains c)) = l :=
  List.filter_eq_self.mpr (fun c hc => by simp [List.contains, h c hc])

/-- C7 amended: the PDF sanitizer normalizes every maximal run of space
characters to a single underscore: between clean nonempty fragments, a run
of `k+1` spaces becomes exactly one underscore; the image sanitizer instead
replaces each space by its own underscore, so a run of `k` spaces becomes
exactly `k` underscores. -/
theorem whitespace_collapse_amended :
    (∀ (k : Nat) (a b : String),
        (∀ c ∈ a.data, c ∉ PDFRenamer.invalid_chars ∧ isSpaceChar c = false) →
        (∀ c ∈ b.data, c ∉ PDFRenamer.invalid_chars ∧ isSpaceChar c = false) →
        a.data ≠ [] → b.data ≠ [] →
        PDFRenamer.sanitize_filename
            (a ++ String.mk (List.replicate (k + 1) ' ') ++ b)
          = a ++ "_" ++ b)
    ∧ (∀ (k : Nat) (a b : String),
        (∀ c ∈ a.data, c ∉ ImageFileRenamer.forbiddenChars ∧ isSpaceChar c = false) →
        (∀ c ∈ b.data, c ∉ ImageFileRenamer.forbiddenChars ∧ isSpaceChar c = false) →
        ImageFileRenamer.sanitize_filename
            (a ++ String.mk (List.replicate k ' ') ++ b)
          = a ++ String.mk (List.replicate k '_') ++ b) := by
  constructor
  · intro k a b ha hb hane hbne
    apply String.ext
    have hdata : (a ++ String.mk (List.replicate (k + 1) ' ') ++ b).data
        = a.data ++ (' ' :: (List.replicate k ' ' ++ b.data)) := by
      simp [List.replicate_succ]
    show stripChars (PDFRenamer.joinUnderscore (pySplit
        ((a ++ String.mk (List.replicate (k + 1) ' ') ++ b).data.filter
          (fun c => !(PDFRenamer.invalid_chars.contains c)))))
      = (a ++ "_" ++ b).data
    rw [hdata]
    have hfA : a.data.filter (fun c => !(PDFRenamer.invalid_chars.contains c))
        = a.data := filter_keep_of_clean (fun c hc => (ha c hc).1)
    have hfB : b.data.filter (fun c => !(PDFRenamer.invalid_chars.contains c))
        = b.data := filter_keep_of_clean (fun c hc => (hb c hc).1)
    have hfS : (List.replicate k ' ').filter
        (fun c => !(PDFRenamer.invalid_chars.contains c)) = List.replicate k ' ' :=
      filter_keep_of_clean (fun c hc => by rw [List.eq_of_mem_replicate hc]; decide)
    have hfsp : (' ' :: (List.replicate k ' ' ++ b.data)).filter
        (fun c => !(PDFRenamer.invalid_chars.contains c))
        = ' ' :: (List.replicate k ' ' ++ b.data) := by
      rw [show (' ' :: (List.replicate k ' ' ++ b.data)).filter
            (fun c => !(PDFRenamer.invalid_chars.contains c))
          = ' ' :: (List.replicate k ' ' ++ b.data).filter
            (fun c => !(PDFRenamer.invalid_chars.contains c)) from rfl,
        List.filter_append, hfS, hfB]
    rw [List.filter_append, hfA, hfsp]
    unfold pySplit
    rw [splitWsAux_fragment_space (List.replicate k ' ' ++ b.data) a.data []
        (fun c hc => (ha c hc).2) (by simpa using hane),
      splitWsAux_skip_spaces b.data k,
      splitWsAux_of_no_space b.data [] (fun c hc => (hb c hc).2)]
    have hbe : ((List.reverse [] ++ b.data).isEmpty = true) = False := by
      cases hB : b.data
      · exact absurd hB hbne
      · simp
    rw [if_neg (by rw [hbe]; exact id)]
    have hns : ∀ c ∈ List.reverse [] ++ a.data
        ++ '_' :: (List.reverse [] ++ b.data), ¬ isSpaceChar c := by
      intro c hc
      rcases List.mem_append.mp hc with hc | hc
      · rcases List.mem_append.mp hc with hc | hc
        · cases hc
        · simp [(ha c hc).2]
      · rcases List.mem_cons.mp hc with rfl | hc
        · decide
        · rcases List.mem_append.mp hc with hc | hc
          · cases hc
          · simp [(hb c hc).2]
    rw [show PDFRenamer.joinUnderscore
          [List.reverse [] ++ a.data, List.reverse [] ++ b.data]
        = List.reverse [] ++ a.data ++ '_' :: (List.reverse [] ++ b.data) from rfl,
      stripChars_eq_self_of_not_space hns]
    simp [show ("_" : String).data = ['_'] from rfl]
  · intro k a b ha hb
    apply String.ext
    have hdata : (a ++ String.mk (List.replicate k ' ') ++ b).data
        = a.data ++ (List.replicate k ' ' ++ b.data) := by simp
    show stripChars (((a ++ String.mk (List.replicate k ' ') ++ b).data.filter
        (fun c => !(ImageFileRenamer.forbiddenChars.contains c))).map
          ImageFileRenamer.replaceSpace)
      = (a ++ String.mk (List.replicate k '_') ++ b).data
    rw [hdata]
    have hfA : a.data.filter
        (fun c => !(ImageFileRenamer.forbiddenChars.contains c)) = a.data :=
      filter_keep_of_clean (fun c hc => (ha c hc).1)
    have hfB : b.data.filter
        (fun c => !(ImageFileRenamer.forbiddenChars.contains c)) = b.data :=
      filter_keep_of_clean (fun c hc => (hb c hc).1)
    have hfS : (List.replicate k ' ').filter
        (fun c => !(ImageFileRenamer.forbiddenChars.contains c))
        = List.replicate k ' ' :=
      filter_keep_of_clean (fun c hc => by rw [List.eq_of_mem_replicate hc]; decide)
    rw [List.filter_append, List.filter_append, hfA, hfS, hfB,
      List.map_append, List.map_append,
      map_eq_self_of_mem (fun c hc => replaceSpace_eq_self (ha c hc).2),
      map_eq_self_of_mem (fun c hc => replaceSpace_eq_self (hb c hc).2),
      List.map_replicate,
      show ImageFileRenamer.replaceSpace ' ' = '_' from rfl]
    have hns : ∀ c ∈ a.data ++ (List.replicate k '_' ++ b.data),
        ¬ isSpaceChar c := by
      intro c hc
      rcases List.mem_append.mp hc with hc | hc
      · simp [(ha c hc).2]
      · rcases List.mem_append.mp hc with hc | hc
        · rw [List.eq_of_mem_replicate hc]; decide
        · simp [(hb c hc).2]
    rw [stripChars_eq_self_of_not_space hns]
    simp

/-- Witness for C7 (amended): a run of three spaces collapses to one
underscore for the PDF sanitizer and becomes three underscores for the image
sanitizer. -/
theorem whitespace_collapse_amended_witness :
    PDFRenamer.sanitize_filename
        ("ab" ++ String.mk (List.replicate 3 ' ') ++ "cd") = "ab" ++ "_" ++ "cd"
    ∧ ImageFileRenamer.sanitize_filename
        ("ab" ++ String.mk (List.replicate 3 ' ') ++ "cd")
      = "ab" ++ String.mk (List.replicate 3 '_') ++ "cd" :=
  ⟨whitespace_collapse_amended.1 2 "ab" "cd" (by decide) (by decide)
      (by decide) (by decide),
    whitespace_collapse_amended.2 3 "ab" "cd" (by decide) (by decide)⟩

/-- C8: both sanitizers are idempotent: applying `sanitize_filename` twice
gives the same result as applying it once, for the image renamer's and the
PDF renamer's sanitizer alike. -/
theorem sanitize_idempotent (s : String) :
    ImageFileRenamer.sanitize_filename (ImageFileRenamer.sanitize_filename s)
      = ImageFileRenamer.sanitize_filename s ∧
    PDFRenamer.sanitize_filename (PDFRenamer.sanitize_filename s)
      = PDFRenamer.sanitize_filename s := by
  constructor
  · apply String.ext
    have hfe : (ImageFileRenamer.sanitize_filename s).data.filter
        (fun b => !(ImageFileRenamer.forbiddenChars.contains b))
        = (ImageFileRenamer.sanitize_filename s).data := by
      rw [List.filter_eq_self]
      intro c hc
      have h1 := (image_sanitize_chars hc).1
      simp [List.contains, h1]
    have hme : (ImageFileRenamer.sanitize_filename s).data.map
        ImageFileRenamer.replaceSpace
        = (ImageFileRenamer.sanitize_filename s).data := by
      apply map_eq_self_of_mem
      intro c hc
      have h2 := (image_sanitize_chars hc).2
      simp [ImageFileRenamer.replaceSpace, h2]
    show stripChars (((ImageFileRenamer.sanitize_filename s).data.filter
        (fun b => !(ImageFileRenamer.forbiddenChars.contains b))).map
          ImageFileRenamer.replaceSpace)
        = (ImageFileRenamer.sanitize_filename s).data
    rw [hfe, hme]
    exact stripChars_stripChars
      ((s.data.filter (fun c => !(ImageFileRenamer.forbiddenChars.contains c))).map
        ImageFileRenamer.replaceSpace)
  · apply String.ext
    have hns : ∀ c ∈ (PDFRenamer.sanitize_filename s).data, isSpaceChar c = false :=
      fun c hc => (pdf_sanitize_chars hc).2
    have hfe : (PDFRenamer.sanitize_filename s).data.filter
        (fun b => !(PDFRenamer.invalid_chars.contains b))
        = (PDFRenamer.sanitize_filename s).data := by
      rw [List.filter_eq_self]
      intro c hc
      have h1 := (pdf_sanitize_chars hc).1
      simp [List.contains, h1]
    show stripChars (PDFRenamer.joinUnderscore (pySplit
        ((PDFRenamer.sanitize_filename s).data.filter
          (fun b => !(PDFRenamer.invalid_chars.contains b)))))
        = (PDFRenamer.sanitize_filename s).data
    rw [hfe]
    unfold pySplit
    rw [splitWsAux_of_no_space _ [] (fun c hc => hns c hc)]
    cases hd : (PDFRenamer.sanitize_filename s).data with
    | nil => simp [PDFRenamer.joinUnderscore, stripChars]
    | cons c rest =>
      rw [if_neg (by simp)]
      show stripChars (PDFRenamer.joinUnderscore [c :: rest]) = c :: rest
      rw [show PDFRenamer.joinUnderscore [c :: rest] = c :: rest from rfl]
      exact stripChars_eq_self_of_not_space (by
        intro a ha
        have := hns a (by rw [hd]; exact ha)
        simp [this])

/-! ### Decimal rendering of the collision counter -/

/-- Numeric value of a decimal digit character. -/
def digitVal (c : Char) : Nat := c.toNat - 48

/-- MSB-first decimal value of a character list. -/
def decValue (l : List Char) : Nat := l.foldl (fun a c => 10 * a + digitVal c) 0

theorem digitVal_digitChar : ∀ k < 10, digitVal (Nat.digitChar k) = k := by decide

/-- Reference MSB-first decimal digits of `n`. -/
def decDigits (n : Nat) : List Char :=
  if _h : n < 10 then [Nat.digitChar n]
  else decDigits (n / 10) ++ [Nat.digitChar (n % 10)]
decreasing_by
  exact Nat.div_lt_self (by omega) (by omega)

theorem decValue_decDigits (n : Nat) : decValue (decDigits n) = n := by
  induction n using Nat.strong_induction_on with
  | _ n ih =>
    rw [decDigits]
    by_cases h : n < 10
    · rw [dif_pos h]
      show 10 * 0 + digitVal (Nat.digitChar n) = n
      rw [digitVal_digitChar n h]
      omega
    · rw [dif_neg h]
      unfold decValue
      rw [List.foldl_append]
      show 10 * decValue (decDigits (n / 10)) + digitVal (Nat.digitChar (n % 10)) = n
      rw [ih (n / 10) (Nat.div_lt_self (by omega) (by omega)),
        digitVal_digitChar (n % 10) (Nat.mod_lt n (by omega))]
      omega

theorem decDigits_injective {m n : Nat} (h : decDigits m = decDigits n) : m = n := by
  have hm := decValue_decDigits m
  rw [h, decValue_decDigits n] at hm
  omega

/-- The fueled core of `Nat.repr` agrees with the reference digits. -/
theorem toDigitsCore_eq :
    ∀ (fuel n : Nat) (ds : List Char), n < 10 ^ (fuel + 1) →
      Nat.toDigitsCore 10 (fuel + 1) n ds = decDigits n ++ ds := by
  intro fuel
  induction fuel with
  | zero =>
    intro n ds hn
    have h10 : n < 10 := by simpa using hn
    have hdiv : n / 10 = 0 := Nat.div_eq_of_lt h10
    have hmod : n % 10 = n := Nat.mod_eq_of_lt h10
    show (if n / 10 = 0 then Nat.digitChar (n % 10) :: ds
        else Nat.toDigitsCore 10 0 (n / 10) (Nat.digitChar (n % 10) :: ds))
      = decDigits n ++ ds
    rw [if_pos hdiv, hmod, decDigits, dif_pos h10]
    rfl
  | succ fuel ih =>
    intro n ds hn
    show (if n / 10 = 0 then Nat.digitChar (n % 10) :: ds
        else Nat.toDigitsCore 10 (fuel + 1) (n / 10) (Nat.digitChar (n % 10) :: ds))
      = decDigits n ++ ds
    by_cases h10 : n < 10
    · rw [if_pos (Nat.div_eq_of_lt h10), Nat.mod_eq_of_lt h10, decDigits, dif_pos h10]
      rfl
    · rw [if_neg (by omega), ih (n / 10) _ (by
        have hpow : (10 : Nat) ^ (fuel + 1 + 1) = 10 ^ (fuel + 1) * 10 :=
          pow_succ 10 (fuel + 1)
        exact Nat.div_lt_of_lt_mul (by omega))]
      rw [show decDigits n = decDigits (n / 10) ++ [Nat.digitChar (n % 10)] from by
        rw [decDigits, dif_neg h10]]
      rw [List.append_assoc]
      rfl

theorem toDigits_eq (n : Nat) : Nat.toDigits 10 n = decDigits n := by
  have hlt : n < 10 ^ (n + 1) :=
    lt_of_lt_of_le (Nat.lt_pow_self (by omega) n)
      (Nat.pow_le_pow_right (by omega) (Nat.le_succ n))
  have h := toDigitsCore_eq n n [] hlt
  rw [List.append_nil] at h
  exact h

/-- `Nat.repr` is injective: distinct counters yield distinct decimal texts. -/
theorem repr_injective {m n : Nat} (h : Nat.repr m = Nat.repr n) : m = n := by
  apply decDigits_injective
  rw [← toDigits_eq, ← toDigits_eq]
  exact congrArg String.data h

/-! ### The collision-avoidance loop shared by both renamers -/

/-- Candidate filename for collision attempt `n`: attempt `0` is
`base + ext` (`f"{base}{ext}"`), attempt `n ≥ 1` is `f"{base}_{n}{ext}"`. -/
def composedName (base ext : String) : Nat → String
  | 0 => base ++ ext
  | Nat.succ k => base ++ "_" ++ Nat.repr (k + 1) ++ ext

theorem composedName_zero_data (base ext : String) :
    (composedName base ext 0).data = base.data ++ ext.data := by
  simp [composedName]

theorem composedName_succ_data (base ext : String) (k : Nat) :
    (composedName base ext (k + 1)).data
      = base.data ++ '_' :: ((Nat.repr (k + 1)).data ++ ext.data) := by
  simp [composedName, show ("_" : String).data = ['_'] from rfl]

theorem composedName_injective (base ext : String) :
    Function.Injective (composedName base ext) := by
  intro m n h
  have hd := congrArg String.data h
  match m, n with
  | 0, 0 => rfl
  | 0, k + 1 =>
    rw [composedName_zero_data, composedName_succ_data] at hd
    have hlen := congrArg List.length hd
    simp only [List.length_append, List.length_cons] at hlen
    omega
  | j + 1, 0 =>
    rw [composedName_succ_data, composedName_zero_data] at hd
    have hlen := congrArg List.length hd
    simp only [List.length_append, List.length_cons] at hlen
    omega
  | j + 1, k + 1 =>
    rw [composedName_succ_data, composedName_succ_data] at hd
    have h1 := List.append_cancel_left hd
    have h1t : (Nat.repr (j + 1)).data ++ ext.data
        = (Nat.repr (k + 1)).data ++ ext.data := by
      injection h1 with h1h h1t
    have h2 : (Nat.repr (j + 1)).data = (Nat.repr (k + 1)).data :=
      List.append_cancel_right h1t
    have hjk := repr_injective (String.ext h2)
    omega

/-- Among the first `|dir| + 1` candidate names at least one is free. -/
theorem exists_free_candidate (dir : List String) (base ext : String) :
    ∃ k ≤ dir.length, composedName base ext k ∉ dir := by
  by_contra hall
  push_neg at hall
  have hsub : (Finset.range (dir.length + 1)).image (composedName base ext)
      ⊆ dir.toFinset := by
    intro x hx
    rw [Finset.mem_image] at hx
    obtain ⟨k, hk, rfl⟩ := hx
    rw [List.mem_toFinset]
    exact hall k (Nat.lt_succ_iff.mp (Finset.mem_range.mp hk))
  have hcard := Finset.card_le_card hsub
  rw [Finset.card_image_of_injective _ (composedName_injective base ext),
    Finset.card_range] at hcard
  have := dir.toFinset_card_le
  omega

/-- The collision loop of `_process_single_image` / `process_file`:
`counter = 1; while exists(target): target = f"{base}_{counter}{ext}";
counter += 1`.  `fuel` bounds the number of iterations. -/
def collisionLoop (dir : List String) (base ext : String) :
    Nat → String → Nat → String
  | 0, name, _ => name
  | fuel + 1, name, counter =>
    if name ∈ dir then
      collisionLoop dir base ext fuel (composedName base ext counter) (counter + 1)
    else name

/-- The final filename the renamers write to, with enough fuel for the loop
to reach a free candidate. -/
def resolveName (dir : List String) (base ext : String) : String :=
  collisionLoop dir base ext (dir.length + 1) (composedName base ext 0) 1

theorem collisionLoop_spec (dir : List String) (base ext : String) :
    ∀ (fuel j : Nat),
      (∃ k ≤ fuel, composedName base ext (j + k) ∉ dir) →
      (∀ m < j, composedName base ext m ∈ dir) →
      ∃ n, collisionLoop dir base ext fuel (composedName base ext j) (j + 1)
            = composedName base ext n
        ∧ composedName base ext n ∉ dir
        ∧ (∀ m < n, composedName base ext m ∈ dir) := by
  intro fuel
  induction fuel with
  | zero =>
    intro j hex hlt
    obtain ⟨k, hk, hfree⟩ := hex
    have hk0 : k = 0 := by omega
    subst hk0
    exact ⟨j, rfl, hfree, hlt⟩
  | succ fuel ih =>
    intro j hex hlt
    rw [collisionLoop]
    by_cases hmem : composedName base ext j ∈ dir
    · rw [if_pos hmem]
      have hex' : ∃ k ≤ fuel, composedName base ext ((j + 1) + k) ∉ dir := by
        obtain ⟨k, hk, hfree⟩ := hex
        cases k with
        | zero => exact absurd hmem hfree
        | succ kp =>
          refine ⟨kp, by omega, ?_⟩
          rw [show (j + 1) + kp = j + (kp + 1) from by omega]
          exact hfree
      have hlt' : ∀ m < j + 1, composedName base ext m ∈ dir := by
        intro m hm
        rcases Nat.lt_succ_iff_lt_or_eq.mp hm with hm | rfl
        · exact hlt m hm
        · exact hmem
      exact ih (j + 1) hex' hlt'
    · rw [if_neg hmem]
      exact ⟨j, rfl, hmem, hlt⟩

/-- The chosen name is the first free candidate: it is some candidate, it is
free, and every earlier candidate was occupied. -/
theorem resolveName_spec (dir : List String) (base ext : String) :
    ∃ n, resolveName dir base ext = composedName base ext n
      ∧ composedName base ext n ∉ dir
      ∧ (∀ m < n, composedName base ext m ∈ dir) := by
  obtain ⟨k, hk, hfree⟩ := exists_free_candidate dir base ext
  have h := collisionLoop_spec dir base ext (dir.length + 1) 0
    ⟨k, by omega, by rw [Nat.zero_add]; exact hfree⟩
    (by intro m hm; omega)
  exact h

theorem resolveName_not_mem (dir : List String) (base ext : String) :
    resolveName dir base ext ∉ dir := by
  obtain ⟨n, heq, hfree, _⟩ := resolveName_spec dir base ext
  rw [heq]
  exact hfree

/-- C1: collision-safe rename: for any target directory, base name and
extension, the rename tries `base+ext` and then `base_1+ext`, `base_2+ext`,
... in increasing order until a free name is found, so the final filename is
a candidate that does not collide with any pre-existing entry while every
earlier candidate was occupied; in particular, with `a.png` present the
chosen name for base `a` is `a_1.png`, and with `a_1.png` also present it is
`a_2.png`. -/
theorem collision_safe_rename (dir : List String) (base ext : String) :
    (∃ n, resolveName dir base ext = composedName base ext n
        ∧ composedName base ext n ∉ dir
        ∧ (∀ m < n, composedName base ext m ∈ dir)) ∧
    resolveName ["a.png"] "a" ".png" = "a_1.png" ∧
    resolveName ["a.png", "a_1.png"] "a" ".png" = "a_2.png" :=
  ⟨resolveName_spec dir base ext, rfl, rfl⟩

/-! ### Filesystem primitives and the external model -/

/-- `os.remove`: drop an entry from the directory listing. -/
def removeEntry (p : String) (entries : List String) : List String :=
  entries.filter (fun x => x != p)

/-- `os.rename`: drop the old entry, add the new one. -/
def renameEntry (old new : String) (entries : List String) : List String :=
  new :: removeEntry old entries

/-- Index of the last `'.'` in the list, if any. -/
def lastDotIdx : List Char → Option Nat
  | [] => none
  | c :: rest =>
    match lastDotIdx rest with
    | some i => some (i + 1)
    | none => if c = '.' then some 0 else none

/-- `os.path.splitext` on a basename: split at the last dot, unless every
character before that dot is itself a dot. -/
def splitext (p : String) : String × String :=
  match lastDotIdx p.data with
  | none => (p, "")
  | some i =>
    if (p.data.take i).all (fun c => c == '.') then (p, "")
    else (String.mk (p.data.take i), String.mk (p.data.drop i))

namespace Gemini2Vision

/-- `Gemini2Vision.get_response`: the generated text on success; on any
exception it prints and calls `sys.exit(1)`, i.e. the whole process exits
with code 1. -/
def get_response (modelResponse : Option String) : Except Nat String :=
  match modelResponse with
  | some text => Except.ok text
  | none => Except.error 1

end Gemini2Vision

namespace ImageFileRenamer

/-- `self.supported_extensions`. -/
def supported_extensions : List String :=
  [".png", ".jpg", ".jpeg", ".gif", ".bmp", ".tiff"]

/-- `filename.lower().endswith(self.supported_extensions)`. -/
def hasSupportedExtension (filename : String) : Bool :=
  supported_extensions.any
    (fun e => e.data.isSuffixOf (filename.data.map Char.toLower))

/-- The temporary resized copy `f"{os.path.basename(image_path)}.tmp"`,
created next to the original. -/
def tempName (filename : String) : String := filename ++ ".tmp"

inductive ImageOutcome where
  | skippedUnsupported
  | skippedResizeError
  | exited (code : Nat)
  | renamed (newName : String)
  deriving DecidableEq

structure ImageResult where
  outcome : ImageOutcome
  resized : Option String
  entries : List String
  deriving DecidableEq

/-- The `try` body of `_process_single_image`: extension check, temp resized
copy, model query via `Gemini2Vision.get_response`, sanitize, collision-free
target, rename.  Returns the outcome, the value of `resized_filepath` when
the `finally` block is reached, and the directory contents at that point. -/
def processBody (entries : List String) (filename : String)
    (resizeOk : Bool) (modelResponse : Option String) :
    ImageOutcome × Option String × List String :=
  if ¬ hasSupportedExtension filename then
    (ImageOutcome.skippedUnsupported, none, entries)
  else if ¬ resizeOk then
    (ImageOutcome.skippedResizeError, none, entries)
  else
    let tmp := tempName filename
    let entries1 := tmp :: entries
    match Gemini2Vision.get_response modelResponse with
    | Except.error code => (ImageOutcome.exited code, some tmp, entries1)
    | Except.ok description =>
      let file_extension := (splitext filename).2
      let sanitized_description := sanitize_filename description
      let new_filename := resolveName entries1 sanitized_description file_extension
      (ImageOutcome.renamed new_filename, some tmp,
        renameEntry filename new_filename entries1)

/-- The `finally` block of `_process_single_image`:
`if resized_filepath and os.path.exists(resized_filepath): os.remove(...)`. -/
def finallyCleanup (resized : Option String) (entries : List String) :
    List String :=
  match resized with
  | none => entries
  | some p => if p ∈ entries then removeEntry p entries else entries

/-- `_process_single_image` on one file: the `try` body followed by the
`finally` cleanup (which runs on every exit path, `sys.exit` included). -/
def process_single_image (entries : List String) (filename : String)
    (resizeOk : Bool) (modelResponse : Option String) : ImageResult :=
  let b := processBody entries filename resizeOk modelResponse
  ⟨b.1, b.2.1, finallyCleanup b.2.1 b.2.2⟩

/-- The per-file loop of `rename_input`: processing stops when a file exits
the process (the vision wrapper calls `sys.exit`, and `SystemExit` is not an
`Exception`, so the per-file handler does not catch it). -/
def imageBatch (resize : String → Bool) (model : String → Option String) :
    List String → List String → List (String × ImageOutcome) × List String
  | entries, [] => ([], entries)
  | entries, f :: fs =>
    let r := process_single_image entries f (resize f) (model f)
    match r.outcome with
    | ImageOutcome.exited c => ([(f, ImageOutcome.exited c)], r.entries)
    | out =>
      let rest := imageBatch resize model r.entries fs
      ((f, out) :: rest.1, rest.2)

end ImageFileRenamer

namespace PDFRenamer

/-- Python truthiness of `new_title` (`if not new_title:`). -/
def pyTruthy (o : Option String) : Bool :=
  match o with
  | none => false
  | some s => !s.isEmpty

/-- One PDF input: its directory-entry name, its metadata `/Title` (or
`none`), and the extractable text of each page (`none` when
`extract_text()` returns `None`). -/
structure PdfFile where
  name : String
  metadataTitle : Option String
  pages : List (Option String)
  deriving DecidableEq

/-- `_get_pdf_metadata_title`: the `/Title` metadata entry, or `None`. -/
def get_pdf_metadata_title (f : PdfFile) : Option String := f.metadataTitle

/-- `_get_first_page_text`: concatenated text of the first
`min(num_pages, len(reader.pages))` pages, each page's missing text read as
`""` (`extract_text() or ""`). -/
def get_first_page_text (pages : List (Option String))
    (num_pages : Nat := 2) : String :=
  String.join ((pages.take (min num_pages pages.length)).map (fun o => o.getD ""))

/-- The prompt of `_get_title_from_gemini`: fixed instructions plus
`text_content[:2000]`. -/
def geminiPrompt (text_content : String) : String :=
  "Analyze the following text from a document and extract the main title of the paper. Provide only the title, and do not include any other text, explanations, or formatting.\n\nDocument Content:\n"
    ++ String.mk (text_content.data.take 2000)

/-- `_get_title_from_gemini`: `None` without any model call when the text is
all whitespace; otherwise ask the model (the second component records whether
the model was invoked); a model failure yields `None`. -/
def get_title_from_gemini (model : String → Option String)
    (text_content : String) : Option String × Bool :=
  if (pyStrip text_content).isEmpty then (none, false)
  else
    match model (geminiPrompt text_content) with
    | some t => (some (pyStrip t), true)
    | none => (none, true)

inductive PdfOutcome where
  | fileNotFound
  | cannotExtractText
  | emptySanitized
  | renamed (newName : String)
  | alreadyNamed
  | noTitle
  deriving DecidableEq

structure PdfResult where
  outcome : PdfOutcome
  modelCalled : Bool
  entries : List String
  deriving DecidableEq

/-- The tail of `process_file` once `new_title` is settled
(`if new_title: ... else: could not determine`). -/
def finishTitle (entries : List String) (f : PdfFile) (extension : String)
    (new_title : Option String) (modelCalled : Bool) : PdfResult :=
  if pyTruthy new_title then
    let sanitized_title := sanitize_filename (new_title.getD "")
    if sanitized_title.isEmpty then
      ⟨PdfOutcome.emptySanitized, modelCalled, entries⟩
    else
      let final_new_filename := resolveName entries sanitized_title extension
      if f.name ≠ final_new_filename then
        ⟨PdfOutcome.renamed final_new_filename, modelCalled,
          renameEntry f.name final_new_filename entries⟩
      else ⟨PdfOutcome.alreadyNamed, modelCalled, entries⟩
  else ⟨PdfOutcome.noTitle, modelCalled, entries⟩

/-- `PDFRenamer.process_file`: metadata title first, then first-page text and
the Gemini fallback, then sanitize / collision-avoid / rename. -/
def process_file (entries : List String) (model : String → Option String)
    (f : PdfFile) : PdfResult :=
  if f.name ∈ entries then
    let extension := (splitext f.name).2
    let meta := get_pdf_metadata_title f
    if pyTruthy meta then
      finishTitle entries f extension meta false
    else
      let text_content := get_first_page_text f.pages 2
      if ¬ text_content.isEmpty then
        let r := get_title_from_gemini model text_content
        finishTitle entries f extension r.1 r.2
      else ⟨PdfOutcome.cannotExtractText, false, entries⟩
  else ⟨PdfOutcome.fileNotFound, false, entries⟩

/-- The per-file loop of `PDFRenamer.run` over a directory listing:
`process_file` never exits the process, so every file is visited. -/
def pdfBatch (model : String → Option String) :
    List String → List PdfFile → List (String × PdfOutcome) × List String
  | entries, [] => ([], entries)
  | entries, f :: fs =>
    let r := process_file entries model f
    let rest := pdfBatch model r.entries fs
    ((f.name, r.outcome) :: rest.1, rest.2)

end PDFRenamer

/-! ### Helper lemmas about the process models -/

theorem not_mem_finallyCleanup (p : String) (ent : List String) :
    p ∉ ImageFileRenamer.finallyCleanup (some p) ent := by
  show p ∉ (if p ∈ ent then removeEntry p ent else ent)
  split
  · intro hmem
    have h2 := List.mem_filter.mp hmem
    simp at h2
  · next h => exact h

theorem pdfBatch_length (model : String → Option String) :
    ∀ (fs : List PDFRenamer.PdfFile) (entries : List String),
      (PDFRenamer.pdfBatch model entries fs).1.length = fs.length := by
  intro fs
  induction fs with
  | nil => intro entries; rfl
  | cons f fs ih =>
    intro entries
    simp [PDFRenamer.pdfBatch, ih]

theorem finishTitle_modelCalled (entries : List String) (f : PDFRenamer.PdfFile)
    (extension : String) (t : Option String) (m : Bool) :
    (PDFRenamer.finishTitle entries f extension t m).modelCalled = m := by
  simp only [PDFRenamer.finishTitle]
  split
  · split
    · rfl
    · split <;> rfl
  · rfl

theorem finishTitle_of_not_truthy (entries : List String)
    (f : PDFRenamer.PdfFile) (extension : String) (t : Option String) (m : Bool)
    (h : PDFRenamer.pyTruthy t = false) :
    PDFRenamer.finishTitle entries f extension t m
      = ⟨PDFRenamer.PdfOutcome.noTitle, m, entries⟩ := by
  simp only [PDFRenamer.finishTitle]
  rw [if_neg (by simp [h])]

theorem finishTitle_empty_sanitized (entries : List String)
    (f : PDFRenamer.PdfFile) (extension : String) (t : Option String) (m : Bool)
    (h1 : PDFRenamer.pyTruthy t = true)
    (h2 : (PDFRenamer.sanitize_filename (t.getD "")).isEmpty = true) :
    PDFRenamer.finishTitle entries f extension t m
      = ⟨PDFRenamer.PdfOutcome.emptySanitized, m, entries⟩ := by
  simp only [PDFRenamer.finishTitle]
  rw [if_pos h1, if_pos h2]

theorem finishTitle_not_alreadyNamed (entries : List String)
    (f : PDFRenamer.PdfFile) (extension : String) (t : Option String) (m : Bool)
    (hmem : f.name ∈ entries) :
    (PDFRenamer.finishTitle entries f extension t m).outcome
      ≠ PDFRenamer.PdfOutcome.alreadyNamed := by
  simp only [PDFRenamer.finishTitle]
  split
  · split
    · intro h; cases h
    · split
      · intro h; cases h
      · next hne =>
        exfalso
        push_neg at hne
        exact resolveName_not_mem entries _ _ (hne ▸ hmem)
  · intro h; cases h

theorem stripChars_eq_nil_of_space {l : List Char}
    (h : ∀ c ∈ l, isSpaceChar c = true) : stripChars l = [] := by
  unfold stripChars
  rw [List.dropWhile_eq_nil_iff.mpr (fun x hx => h x hx)]
  rfl

/-! ### C2, C3, C5, C6, C9, C10 -/

/-- C3: temporary-file cleanup: on every exit path of
`_process_single_image` (successful rename, skip, failure, and the
`sys.exit` raised by a failed model call), if the temporary resized copy was
created then it is absent from the directory after the `finally` block. -/
theorem temp_file_always_removed (entries : List String) (filename : String)
    (resizeOk : Bool) (modelResponse : Option String) (p : String)
    (hp : (ImageFileRenamer.process_single_image entries filename resizeOk
        modelResponse).resized = some p) :
    p ∉ (ImageFileRenamer.process_single_image entries filename resizeOk
        modelResponse).entries := by
  simp only [ImageFileRenamer.process_single_image] at hp ⊢
  rw [hp]
  exact not_mem_finallyCleanup p _

/-- Witness for C3 on the model-failure exit path. -/
theorem temp_file_always_removed_witness :
    (ImageFileRenamer.process_single_image ["a.png"] "a.png" true none).resized
        = some "a.png.tmp"
    ∧ "a.png.tmp" ∉ (ImageFileRenamer.process_single_image ["a.png"] "a.png"
        true none).entries :=
  ⟨rfl, temp_file_always_removed ["a.png"] "a.png" true none "a.png.tmp" rfl⟩

/-- C2 counterexample: the image renamer does not skip the current file and
continue on a model failure: with the model failing, a two-file batch stops
after the first file with a process exit, and the second file is never
processed. -/
theorem model_failure_counterexample :
    ImageFileRenamer.imageBatch (fun _ => true) (fun _ => none)
        ["a.png"] ["a.png", "b.png"]
      = ([("a.png", ImageFileRenamer.ImageOutcome.exited 1)], ["a.png"]) := rfl

/-- C2 amended: on an external-model failure the PDF renamer skips the
current file (no rename, directory unchanged) and its batch still visits
every file, while the image renamer exits the whole process with code 1
(the shared vision wrapper calls `sys.exit(1)`, which the per-file
`except Exception` handler cannot catch), as does the single-shot vision
query. -/
theorem model_failure_handling (entries : List String) (filename : String)
    (model : String → Option String) (f : PDFRenamer.PdfFile)
    (fs : List PDFRenamer.PdfFile)
    (hsup : ImageFileRenamer.hasSupportedExtension filename = true)
    (hmem : f.name ∈ entries)
    (hmeta : PDFRenamer.pyTruthy (PDFRenamer.get_pdf_metadata_title f) = false)
    (hfail : ∀ p, model p = none) :
    (ImageFileRenamer.process_single_image entries filename true none).outcome
        = ImageFileRenamer.ImageOutcome.exited 1
    ∧ (PDFRenamer.process_file entries model f).entries = entries
    ∧ (∀ s, (PDFRenamer.process_file entries model f).outcome
        ≠ PDFRenamer.PdfOutcome.renamed s)
    ∧ (PDFRenamer.pdfBatch model entries fs).1.length = fs.length
    ∧ Gemini2Vision.get_response none = Except.error 1 := by
  have himg : (ImageFileRenamer.process_single_image entries filename true
      none).outcome = ImageFileRenamer.ImageOutcome.exited 1 := by
    simp [ImageFileRenamer.process_single_image, ImageFileRenamer.processBody,
      hsup, Gemini2Vision.get_response]
  have hnone : (PDFRenamer.get_title_from_gemini model
      (PDFRenamer.get_first_page_text f.pages 2)).1 = none := by
    unfold PDFRenamer.get_title_from_gemini
    split
    · rfl
    · rw [hfail]
  have hr : PDFRenamer.process_file entries model f
        = ⟨PDFRenamer.PdfOutcome.cannotExtractText, false, entries⟩
      ∨ PDFRenamer.process_file entries model f
        = ⟨PDFRenamer.PdfOutcome.noTitle,
            (PDFRenamer.get_title_from_gemini model
              (PDFRenamer.get_first_page_text f.pages 2)).2, entries⟩ := by
    simp only [PDFRenamer.process_file]
    rw [if_pos hmem, if_neg (by simp [hmeta])]
    by_cases htext : (PDFRenamer.get_first_page_text f.pages 2).isEmpty
    · left
      rw [if_neg (not_not_intro htext)]
    · right
      rw [if_pos htext, hnone]
      exact finishTitle_of_not_truthy _ _ _ _ _ rfl
  refine ⟨himg, ?_, ?_, pdfBatch_length model fs entries, rfl⟩
  · rcases hr with h | h <;> rw [h]
  · intro s
    rcases hr with h | h <;> rw [h] <;> intro hcontra <;> cases hcontra

/-- Witness for C2 (amended) at a concrete failing model. -/
theorem model_failure_handling_witness :
    (ImageFileRenamer.process_single_image ["doc.pdf", "b.png"] "b.png" true
        none).outcome = ImageFileRenamer.ImageOutcome.exited 1 :=
  (model_failure_handling ["doc.pdf", "b.png"] "b.png" (fun _ => none)
      ⟨"doc.pdf", none, [some "hello"]⟩ []
      (by decide) (by decide) rfl (fun _ => rfl)).1

/-- C5: PDF title precedence: a non-empty metadata title means the external
model is never invoked, the model can only have been called when the
metadata title was absent or empty, and concretely `doc.pdf` with metadata
title `Foo` is renamed to `Foo.pdf` whatever the model would answer. -/
theorem pdf_title_precedence (entries : List String)
    (model : String → Option String) (f : PDFRenamer.PdfFile) :
    (PDFRenamer.pyTruthy (PDFRenamer.get_pdf_metadata_title f) = true →
      (PDFRenamer.process_file entries model f).modelCalled = false)
    ∧ ((PDFRenamer.process_file entries model f).modelCalled = true →
      PDFRenamer.pyTruthy (PDFRenamer.get_pdf_metadata_title f) = false)
    ∧ PDFRenamer.process_file ["doc.pdf"] model ⟨"doc.pdf", some "Foo", []⟩
        = ⟨PDFRenamer.PdfOutcome.renamed "Foo.pdf", false, ["Foo.pdf"]⟩ := by
  have h1 : PDFRenamer.pyTruthy (PDFRenamer.get_pdf_metadata_title f) = true →
      (PDFRenamer.process_file entries model f).modelCalled = false := by
    intro hmeta
    simp only [PDFRenamer.process_file]
    split
    · exact finishTitle_modelCalled _ _ _ _ _
    · rfl
  refine ⟨h1, ?_, rfl⟩
  intro hcalled
  by_contra hmeta
  rw [Bool.not_eq_false] at hmeta
  rw [h1 hmeta] at hcalled
  cases hcalled

/-- Witness for C5 at a concrete metadata title. -/
theorem pdf_title_precedence_witness :
    (PDFRenamer.process_file ["doc.pdf"] (fun _ => some "X")
        ⟨"doc.pdf", some "Foo", []⟩).modelCalled = false :=
  (pdf_title_precedence ["doc.pdf"] (fun _ => some "X")
      ⟨"doc.pdf", some "Foo", []⟩).1 rfl

/-- C6 counterexample: the image renamer has no empty-sanitized-title check:
a description sanitizing to the empty string still renames the file, to the
bare extension. -/
theorem empty_title_counterexample :
    ImageFileRenamer.sanitize_filename "?" = ""
    ∧ (ImageFileRenamer.process_single_image ["a.png"] "a.png" true
        (some "?")).outcome = ImageFileRenamer.ImageOutcome.renamed ".png" :=
  ⟨rfl, rfl⟩

/-- C6 amended: the PDF renamer treats an empty sanitized title as "no
usable title": it logs, performs no rename, leaves the directory unchanged,
and the batch continues with the remaining files; the image renamer lacks
this check and renames such a file to the bare extension. -/
theorem empty_title_skips (entries : List String)
    (model : String → Option String) (f : PDFRenamer.PdfFile)
    (fs : List PDFRenamer.PdfFile)
    (hmem : f.name ∈ entries)
    (hmeta : PDFRenamer.pyTruthy (PDFRenamer.get_pdf_metadata_title f) = true)
    (hsan : (PDFRenamer.sanitize_filename
        ((PDFRenamer.get_pdf_metadata_title f).getD "")).isEmpty = true) :
    PDFRenamer.process_file entries model f
        = ⟨PDFRenamer.PdfOutcome.emptySanitized, false, entries⟩
    ∧ (PDFRenamer.pdfBatch model entries fs).1.length = fs.length
    ∧ (ImageFileRenamer.process_single_image ["b.png"] "b.png" true
        (some "::")).outcome = ImageFileRenamer.ImageOutcome.renamed ".png" := by
  refine ⟨?_, pdfBatch_length model fs entries, rfl⟩
  simp only [PDFRenamer.process_file]
  rw [if_pos hmem, if_pos hmeta]
  exact finishTitle_empty_sanitized _ _ _ _ _ hmeta hsan

/-- Witness for C6 (amended) at a concrete metadata title `???`. -/
theorem empty_title_skips_witness :
    PDFRenamer.process_file ["doc.pdf"] (fun _ => none)
        ⟨"doc.pdf", some "???", []⟩
      = ⟨PDFRenamer.PdfOutcome.emptySanitized, false, ["doc.pdf"]⟩ :=
  (empty_title_skips ["doc.pdf"] (fun _ => none) ⟨"doc.pdf", some "???", []⟩ []
      (by decide) rfl (by decide)).1

/-- C9: the collision check sees the file being renamed itself, so when the
source file exists the chosen target is never an existing name and the PDF
renamer's `alreadyNamed` skip branch is unreachable; concretely a PDF named
exactly like its sanitized title is renamed with suffix `_1`, and likewise
for the image renamer. -/
theorem self_collision_renames (entries : List String)
    (model : String → Option String) (f : PDFRenamer.PdfFile)
    (hmem : f.name ∈ entries) :
    (PDFRenamer.process_file entries model f).outcome
        ≠ PDFRenamer.PdfOutcome.alreadyNamed
    ∧ PDFRenamer.process_file ["Foo.pdf"] model ⟨"Foo.pdf", some "Foo", []⟩
        = ⟨PDFRenamer.PdfOutcome.renamed "Foo_1.pdf", false, ["Foo_1.pdf"]⟩
    ∧ (ImageFileRenamer.process_single_image ["a.png"] "a.png" true
        (some "a")).outcome = ImageFileRenamer.ImageOutcome.renamed "a_1.png" := by
  refine ⟨?_, rfl, rfl⟩
  simp only [PDFRenamer.process_file]
  rw [if_pos hmem]
  split
  · exact finishTitle_not_alreadyNamed _ _ _ _ _ hmem
  · split
    · exact finishTitle_not_alreadyNamed _ _ _ _ _ hmem
    · intro h; cases h

/-- Witness for C9 at a concrete self-colliding file. -/
theorem self_collision_renames_witness :
    (PDFRenamer.process_file ["x.pdf"] (fun _ => some "T")
        ⟨"x.pdf", some "x", []⟩).outcome
      ≠ PDFRenamer.PdfOutcome.alreadyNamed :=
  (self_collision_renames ["x.pdf"] (fun _ => some "T") ⟨"x.pdf", some "x", []⟩
      (by decide)).1

/-- C10: PDF model-input bounds: text extraction depends only on the first
2 pages (capped at the page count, a page's missing text read as empty), the
prompt depends only on the first 2000 characters of the extracted text, and
all-whitespace text yields no title without any model call. -/
theorem pdf_model_input_bounds :
    (∀ (p1 p2 : Option String) (rest : List (Option String)),
        PDFRenamer.get_first_page_text (p1 :: p2 :: rest) 2
          = PDFRenamer.get_first_page_text [p1, p2] 2)
    ∧ (∀ pages : List (Option String),
        PDFRenamer.get_first_page_text (none :: pages) 2
          = PDFRenamer.get_first_page_text (some "" :: pages) 2)
    ∧ (∀ s t : String, s.data.take 2000 = t.data.take 2000 →
        PDFRenamer.geminiPrompt s = PDFRenamer.geminiPrompt t)
    ∧ (∀ (model : String → Option String) (text : String),
        (∀ c ∈ text.data, isSpaceChar c = true) →
        PDFRenamer.get_title_from_gemini model text = (none, false)) := by
  refine ⟨?_, ?_, ?_, ?_⟩
  · intro p1 p2 rest
    unfold PDFRenamer.get_first_page_text
    have h1 : min 2 (p1 :: p2 :: rest).length = 2 := by
      simp only [List.length_cons]
      omega
    have h2 : min 2 ([p1, p2] : List (Option String)).length = 2 := rfl
    rw [h1, h2]
    rfl
  · intro pages
    unfold PDFRenamer.get_first_page_text
    simp only [List.length_cons]
    obtain ⟨k, hk⟩ : ∃ k, min 2 (pages.length + 1) = k + 1 :=
      ⟨min 2 (pages.length + 1) - 1, by omega⟩
    rw [hk]
    rfl
  · intro s t h
    unfold PDFRenamer.geminiPrompt
    rw [h]
  · intro model text h
    unfold PDFRenamer.get_title_from_gemini
    rw [if_pos ?hcond]
    case hcond =>
      show (pyStrip text).isEmpty = true
      unfold pyStrip
      rw [stripChars_eq_nil_of_space h]
      rfl

/-- Witness for C10 on all-whitespace text. -/
theorem pdf_model_input_bounds_witness :
    PDFRenamer.get_title_from_gemini (fun _ => some "T") " \t" = (none, false) :=
  pdf_model_input_bounds.2.2.2 (fun _ => some "T") " \t" (by decide)

end FileRenamer
